import Mathlib

/-!
Shallow embedding of the `simplerouter` Go package (router.go): path joining,
middleware chains, the shared route table, registration and dispatch.
Handlers are abstract values of a type parameter `H`; a middleware is a
function `H → H`, exactly as the source's `Middleware func(HandlerFunc) HandlerFunc`.
The shared-by-pointer route table of the Go code is modelled by explicit state
passing of a `Table` value; the value-copied scope data (prefix and middleware
slice) is the `Scope` structure.
-/

namespace SimpleRouter

/-- Model of Go `strings.HasPrefix s p` on char lists: does `s` begin with `p`. -/
def dataHasPre : List Char → List Char → Bool
  | _, [] => true
  | [], _ :: _ => false
  | c :: s, d :: p => c == d && dataHasPre s p

/-- Go `strings.HasPrefix(s, p)`. -/
def hasPre (s p : String) : Bool := dataHasPre s.data p.data

/-- Go `strings.HasSuffix(s, p)`: `s` ends with `p`. -/
def hasSuf (s p : String) : Bool := dataHasPre s.data.reverse p.data.reverse

/-- Embedding of `Router.joinPaths` (router.go lines 55-75).
`path[1:]` is `String.drop path 1`. -/
def joinPaths (base path : String) : String :=
  if base = "" then
    if !hasPre path "/" then "/" ++ path else path
  else if path = "" then
    base
  else
    let base2 := if !hasSuf base "/" then base ++ "/" else base
    let path2 := if hasPre path "/" then path.drop 1 else path
    base2 ++ path2

/-- Association-list lookup, modelling a read `m[k]` of a Go `map[string]V`
(`none` is the nil/zero value for a missing key). -/
def alookup {α : Type} : List (String × α) → String → Option α
  | [], _ => none
  | (k, v) :: l, k' => if k = k' then some v else alookup l k'

/-- Association-list update, modelling a write `m[k] = v` of a Go `map[string]V`
(overwrites an existing key, otherwise adds the key). -/
def aset {α : Type} : List (String × α) → String → α → List (String × α)
  | [], k, v => [(k, v)]
  | (k', v') :: l, k, v => if k' = k then (k, v) :: l else (k', v') :: aset l k v

/-- The Go `RouteInfo` record (method, full path, owning prefix). -/
structure RouteInfo where
  method : String
  path : String
  pre : String
deriving Repr, DecidableEq

/-- The value-copied part of a Go `Router`: the scope-local path prefix
(`pre` models the source field named `prefix`, a Lean keyword) and the
scope-local middleware slice. -/
structure Scope (H : Type) where
  pre : String
  mws : List (H → H)

/-- The pointer-shared part of a Go `Router`: the `routes` table
(path → method → finalized handler), the set of paths for which
`mux.HandleFunc` has been called (in call order), and the `routeInfo` slice. -/
structure Table (H : Type) where
  routes : List (String × List (String × H))
  bound : List String
  routeInfo : List RouteInfo

/-- `New()` (router.go lines 29-38): empty prefix and middleware slice. -/
def Scope.new {H : Type} : Scope H := ⟨"", []⟩

/-- `New()`: empty routes map, no mux bindings, empty routeInfo. -/
def Table.new {H : Type} : Table H := ⟨[], [], []⟩

/-- The middleware-composition loop of `Router.Handle` (router.go lines 95-98):
`finalHandler := handler; for i := len(mws)-1; i >= 0; i-- do finalHandler = mws[i](finalHandler)`,
i.e. `finalize [m0, ..., mn-1] h = m0 (m1 (... (mn-1 h)))`. -/
def finalize {H : Type} : List (H → H) → H → H
  | [], h => h
  | m :: ms, h => m (finalize ms h)

/-- `Router.Group` (router.go lines 77-90): joined prefix, middleware slice
copied as-is, table shared. -/
def Scope.group {H : Type} (s : Scope H) (p : String) : Scope H :=
  ⟨joinPaths s.pre p, s.mws⟩

/-- `Router.Use` (router.go lines 134-146): same prefix, fresh slice that is
the old middlewares followed by the new ones, table shared. -/
def Scope.use {H : Type} (s : Scope H) (ms : List (H → H)) : Scope H :=
  ⟨s.pre, s.mws ++ ms⟩

/-- `Router.With` (router.go lines 148-150): alias for `Use`. -/
def Scope.withMws {H : Type} (s : Scope H) (ms : List (H → H)) : Scope H :=
  s.use ms

/-- `Router.Handle` (router.go lines 92-112): join the path, compose the
finalized handler, bind a dispatcher on first registration for the full path,
store/overwrite the finalized handler under (path, method), append routeInfo. -/
def Scope.handle {H : Type} (s : Scope H) (t : Table H) (method path : String) (h : H) :
    Table H :=
  let fullPath := joinPaths s.pre path
  let finalHandler := finalize s.mws h
  let rb : List (String × List (String × H)) × List String :=
    match alookup t.routes fullPath with
    | none => (aset t.routes fullPath [], t.bound ++ [fullPath])
    | some _ => (t.routes, t.bound)
  let mm := (alookup rb.1 fullPath).getD []
  { routes := aset rb.1 fullPath (aset mm method finalHandler)
    bound := rb.2
    routeInfo := t.routeInfo ++ [⟨method, fullPath, s.pre⟩] }

/-- Outcome of the per-path dispatcher: either a finalized handler is invoked,
or a 405 response is produced carrying the allowed-methods enumeration. -/
inductive DispatchResult (H : Type) where
  | handled : H → DispatchResult H
  | methodNotAllowed : List String → DispatchResult H
deriving Repr

/-- Go `methodHandlers := r.routes[path]` (router.go line 116): the method map
stored for a path; the nil map (empty) when the path was never registered. -/
def methodMap {H : Type} (t : Table H) (path : String) : List (String × H) :=
  (alookup t.routes path).getD []

/-- `Router.dispatch` (router.go lines 114-128): look up the method map of the
path; invoke the finalized handler for the request method if present, else
emit 405 with the registered methods of that path as the allowed set. -/
def dispatch {H : Type} (t : Table H) (path method : String) : DispatchResult H :=
  match alookup (methodMap t path) method with
  | some h => .handled h
  | none => .methodNotAllowed ((methodMap t path).map Prod.fst)

/-- `Router.GET` (router.go lines 190-196): with extra middlewares, register
through a `With`-derived scope; otherwise register directly. -/
def Scope.get {H : Type} (s : Scope H) (t : Table H) (path : String) (h : H)
    (middlewares : List (H → H)) : Table H :=
  if middlewares.length > 0 then (s.withMws middlewares).handle t "GET" path h
  else s.handle t "GET" path h

/-- `Router.POST` (router.go lines 198-204). -/
def Scope.post {H : Type} (s : Scope H) (t : Table H) (path : String) (h : H)
    (middlewares : List (H → H)) : Table H :=
  if middlewares.length > 0 then (s.withMws middlewares).handle t "POST" path h
  else s.handle t "POST" path h

/-- `Router.PUT` (router.go lines 206-212). -/
def Scope.put {H : Type} (s : Scope H) (t : Table H) (path : String) (h : H)
    (middlewares : List (H → H)) : Table H :=
  if middlewares.length > 0 then (s.withMws middlewares).handle t "PUT" path h
  else s.handle t "PUT" path h

/-- `Router.DELETE` (router.go lines 214-220). -/
def Scope.delete {H : Type} (s : Scope H) (t : Table H) (path : String) (h : H)
    (middlewares : List (H → H)) : Table H :=
  if middlewares.length > 0 then (s.withMws middlewares).handle t "DELETE" path h
  else s.handle t "DELETE" path h

/-- `Router.PATCH` (router.go lines 222-228). -/
def Scope.patch {H : Type} (s : Scope H) (t : Table H) (path : String) (h : H)
    (middlewares : List (H → H)) : Table H :=
  if middlewares.length > 0 then (s.withMws middlewares).handle t "PATCH" path h
  else s.handle t "PATCH" path h

/-- `Router.HEAD` (router.go lines 230-236). -/
def Scope.head {H : Type} (s : Scope H) (t : Table H) (path : String) (h : H)
    (middlewares : List (H → H)) : Table H :=
  if middlewares.length > 0 then (s.withMws middlewares).handle t "HEAD" path h
  else s.handle t "HEAD" path h

/-- `Router.OPTIONS` (router.go lines 238-244). -/
def Scope.options {H : Type} (s : Scope H) (t : Table H) (path : String) (h : H)
    (middlewares : List (H → H)) : Table H :=
  if middlewares.length > 0 then (s.withMws middlewares).handle t "OPTIONS" path h
  else s.handle t "OPTIONS" path h

/-- The Go `RouteBuilder` (router.go lines 246-250): target scope, target path
(not yet joined) and its own middleware accumulator. -/
structure RouteBuilder (H : Type) where
  scope : Scope H
  path : String
  middlewares : List (H → H)

/-- `Router.Route` (router.go lines 252-258): new builder with an empty
middleware accumulator. -/
def Scope.route {H : Type} (s : Scope H) (path : String) : RouteBuilder H :=
  ⟨s, path, []⟩

/-- `RouteBuilder.Use` (router.go lines 260-263): append to the accumulator. -/
def RouteBuilder.use {H : Type} (rb : RouteBuilder H) (ms : List (H → H)) :
    RouteBuilder H :=
  { rb with middlewares := rb.middlewares ++ ms }

/-- `RouteBuilder.GET` (router.go lines 265-267): per-method registration on
the builder's scope with the accumulator as extra middlewares. -/
def RouteBuilder.get {H : Type} (rb : RouteBuilder H) (t : Table H) (h : H) :
    Table H :=
  rb.scope.get t rb.path h rb.middlewares

/-- A registration event: which scope registered which (method, path, handler).
Used to describe tables reachable by a sequence of `Handle` calls. -/
structure Ev (H : Type) where
  scope : Scope H
  method : String
  path : String
  handler : H

/-- Run a list of registration events against a table, left to right. -/
def runEvs {H : Type} (t : Table H) : List (Ev H) → Table H
  | [] => t
  | e :: es => runEvs (e.scope.handle t e.method e.path e.handler) es

/-- Handlers that append tags to a shared ordered log: the concrete handler
type used to observe middleware execution order. -/
def LogH := List String → List String

/-- A logging middleware: records its tag (pre-delegation), then delegates. -/
def logMW (tag : String) : LogH → LogH :=
  fun next log => next (log ++ [tag])

/-- A base handler that records its tag on the log. -/
def tagHandler (tag : String) : LogH :=
  fun log => log ++ [tag]

/-! ### Lemmas about the embedded operations -/

theorem alookup_aset {α : Type} (l : List (String × α)) (k k' : String) (v : α) :
    alookup (aset l k v) k' = if k = k' then some v else alookup l k' := by
  induction l with
  | nil => simp [aset, alookup]
  | cons kv l ih =>
    obtain ⟨k0, v0⟩ := kv
    by_cases h0 : k0 = k
    · subst h0
      by_cases h1 : k0 = k'
      · subst h1; simp [aset, alookup]
      · simp [aset, alookup, h1]
    · by_cases h1 : k0 = k'
      · subst h1
        have h2 : ¬ k = k0 := fun h => h0 h.symm
        simp [aset, alookup, h0, h2]
      · simp [aset, alookup, h0, h1, ih]

theorem aset_aset_same {α : Type} (l : List (String × α)) (k : String) (v v' : α) :
    aset (aset l k v) k v' = aset l k v' := by
  induction l with
  | nil => simp [aset]
  | cons kv l ih =>
    obtain ⟨k0, v0⟩ := kv
    by_cases h0 : k0 = k
    · subst h0; simp [aset]
    · simp [aset, h0, ih]

theorem mem_map_fst_iff {α : Type} (l : List (String × α)) (m : String) :
    m ∈ l.map Prod.fst ↔ (alookup l m).isSome := by
  induction l with
  | nil => simp [alookup]
  | cons kv l ih =>
    obtain ⟨k, v⟩ := kv
    by_cases h : k = m
    · subst h; simp [alookup]
    · have h2 : ¬ m = k := fun hh => h hh.symm
      simp [alookup, h, h2, ih]

theorem isSome_alookup_aset {α : Type} (l : List (String × α)) (k k' : String) (v : α) :
    (alookup (aset l k v) k').isSome ↔ k = k' ∨ (alookup l k').isSome := by
  rw [alookup_aset]
  by_cases h : k = k' <;> simp [h]

/-- The method map stored by `Handle` at the registered full path: the previous
map with (method ↦ finalized handler) added or overwritten; other paths keep
their method map. -/
theorem handle_methodMap {H : Type} (s : Scope H) (t : Table H) (mth p q : String)
    (h : H) :
    methodMap (s.handle t mth p h) q =
      if joinPaths s.pre p = q then
        aset (methodMap t q) mth (finalize s.mws h)
      else methodMap t q := by
  unfold Scope.handle methodMap
  cases halt : alookup t.routes (joinPaths s.pre p) with
  | none =>
    by_cases hq : joinPaths s.pre p = q
    · subst hq; simp [halt, alookup_aset]
    · simp [halt, alookup_aset, hq]
  | some mm0 =>
    by_cases hq : joinPaths s.pre p = q
    · subst hq; simp [halt, alookup_aset]
    · simp [halt, alookup_aset, hq]

/-- `Handle` appends the full path to the mux bindings exactly when the path is
not yet in the route table, else leaves the bindings unchanged. -/
theorem handle_bound {H : Type} (s : Scope H) (t : Table H) (mth p : String) (h : H) :
    (s.handle t mth p h).bound =
      match alookup t.routes (joinPaths s.pre p) with
      | none => t.bound ++ [joinPaths s.pre p]
      | some _ => t.bound := by
  unfold Scope.handle
  cases halt : alookup t.routes (joinPaths s.pre p) <;> simp [halt]

/-- `Handle` leaves the route-table keys unchanged except for adding the
registered full path. -/
theorem handle_routes_isSome {H : Type} (s : Scope H) (t : Table H) (mth p q : String)
    (h : H) :
    (alookup (s.handle t mth p h).routes q).isSome
      ↔ q = joinPaths s.pre p ∨ (alookup t.routes q).isSome := by
  unfold Scope.handle
  cases halt : alookup t.routes (joinPaths s.pre p) with
  | none =>
    by_cases hq : joinPaths s.pre p = q
    · subst hq; simp [halt, isSome_alookup_aset]
    · have hq2 : ¬ q = joinPaths s.pre p := fun hh => hq hh.symm
      simp [halt, isSome_alookup_aset, hq, hq2]
  | some mm0 =>
    by_cases hq : joinPaths s.pre p = q
    · subst hq; simp [halt, isSome_alookup_aset]
    · have hq2 : ¬ q = joinPaths s.pre p := fun hh => hq hh.symm
      simp [halt, isSome_alookup_aset, hq, hq2]

/-- After a `Handle`, the route table has an entry for the registered path. -/
theorem handle_routes_self_isSome {H : Type} (s : Scope H) (t : Table H)
    (mth p : String) (h : H) :
    (alookup (s.handle t mth p h).routes (joinPaths s.pre p)).isSome := by
  rw [handle_routes_isSome]
  exact Or.inl rfl

/-- Dispatching the registered (path, method) immediately after `Handle`
invokes exactly the finalized handler composed at registration time. -/
theorem dispatch_handle_self {H : Type} (s : Scope H) (t : Table H) (mth p : String)
    (h : H) :
    dispatch (s.handle t mth p h) (joinPaths s.pre p) mth
      = .handled (finalize s.mws h) := by
  unfold dispatch
  rw [handle_methodMap]
  simp [alookup_aset]

/-- Executing the composed chain of logging middlewares appends the middleware
tags in list order, then the handler tag. -/
theorem finalize_logMW (names : List String) (tag : String) (acc : List String) :
    finalize (names.map logMW) (tagHandler tag) acc = acc ++ names ++ [tag] := by
  induction names generalizing acc with
  | nil => simp [finalize, tagHandler]
  | cons n ns ih => simp [finalize, logMW, ih]

theorem finalize_append {H : Type} (ms ns : List (H → H)) (h : H) :
    finalize (ms ++ ns) h = finalize ms (finalize ns h) := by
  induction ms with
  | nil => simp [finalize]
  | cons m ms ih => simp [finalize, ih]

/-- Registration invariant: the mux-bound paths are exactly the route-table
keys, each bound once. -/
def goodTable {H : Type} (t : Table H) : Prop :=
  t.bound.Nodup ∧ ∀ q, q ∈ t.bound ↔ (alookup t.routes q).isSome

theorem goodTable_new {H : Type} : goodTable (Table.new (H := H)) := by
  constructor
  · exact List.nodup_nil
  · intro q; simp [Table.new, alookup]

theorem handle_good {H : Type} (s : Scope H) (t : Table H) (mth p : String) (h : H)
    (ht : goodTable t) : goodTable (s.handle t mth p h) := by
  obtain ⟨hnd, hmem⟩ := ht
  have hb := handle_bound s t mth p h
  cases halt : alookup t.routes (joinPaths s.pre p) with
  | none =>
    rw [halt] at hb
    constructor
    · rw [hb, List.nodup_append]
      refine ⟨hnd, List.nodup_singleton _, ?_⟩
      intro q hq hq1
      rw [List.mem_singleton] at hq1
      subst hq1
      rw [hmem, halt] at hq
      simp at hq
    · intro q
      rw [hb, handle_routes_isSome, List.mem_append, List.mem_singleton, hmem]
      tauto
  | some mm0 =>
    rw [halt] at hb
    constructor
    · rw [hb]; exact hnd
    · intro q
      rw [hb, handle_routes_isSome, hmem]
      constructor
      · intro hq; exact Or.inr hq
      · rintro (hq | hq)
        · subst hq; rw [halt]; rfl
        · exact hq

theorem runEvs_good {H : Type} (evs : List (Ev H)) (t : Table H) (ht : goodTable t) :
    goodTable (runEvs t evs) := by
  induction evs generalizing t with
  | nil => exact ht
  | cons e es ih => exact ih _ (handle_good _ _ _ _ _ ht)

theorem runEvs_append {H : Type} (t : Table H) (evs evs' : List (Ev H)) :
    runEvs t (evs ++ evs') = runEvs (runEvs t evs) evs' := by
  induction evs generalizing t with
  | nil => rfl
  | cons e es ih => simp [runEvs, ih]

/-- "(method `m`, path `p`) was registered by one of the events": the event's
full path (scope prefix joined with its path argument) is `p` and its method
is `m`. -/
def regAt {H : Type} (evs : List (Ev H)) (p m : String) : Prop :=
  ∃ e ∈ evs, joinPaths e.scope.pre e.path = p ∧ e.method = m

/-- A method has a stored handler at `p` after running events iff it had one
before or some event registered (method, `p`). -/
theorem runEvs_isSome {H : Type} (evs : List (Ev H)) (t : Table H) (p m : String) :
    (alookup (methodMap (runEvs t evs) p) m).isSome
      ↔ (alookup (methodMap t p) m).isSome ∨ regAt evs p m := by
  induction evs generalizing t with
  | nil => simp [runEvs, regAt]
  | cons e es ih =>
    rw [runEvs, ih]
    have hmm := handle_methodMap e.scope t e.method e.path p e.handler
    constructor
    · rintro (hq | hq)
      · rw [hmm] at hq
        by_cases hfp : joinPaths e.scope.pre e.path = p
        · rw [if_pos hfp, isSome_alookup_aset] at hq
          rcases hq with hq | hq
          · exact Or.inr ⟨e, List.mem_cons_self _ _, hfp, hq⟩
          · exact Or.inl hq
        · rw [if_neg hfp] at hq
          exact Or.inl hq
      · obtain ⟨e', he', h1, h2⟩ := hq
        exact Or.inr ⟨e', List.mem_cons_of_mem _ he', h1, h2⟩
    · rintro (hq | hq)
      · left
        rw [hmm]
        by_cases hfp : joinPaths e.scope.pre e.path = p
        · rw [if_pos hfp, isSome_alookup_aset]; exact Or.inr hq
        · rw [if_neg hfp]; exact hq
      · obtain ⟨e', he', h1, h2⟩ := hq
        rcases List.mem_cons.1 he' with he'' | he''
        · subst he''
          left
          rw [hmm, if_pos h1, isSome_alookup_aset]
          exact Or.inl h2
        · exact Or.inr ⟨e', he'', h1, h2⟩

/-! ### Explicit-reference model of table sharing

The Go `Router` holds a pointer to the shared `routes` map; `Group`, `Use` and
`With` copy the pointer, never the table. `RRouter` makes the pointer explicit
as an index into a heap of tables. -/

/-- A Go `*Router`: a reference (`ref`) to the shared table plus the
value-copied prefix and middleware slice. -/
structure RRouter (H : Type) where
  ref : Nat
  pre : String
  mws : List (H → H)

/-- The root router made by `New()`: fresh table at index 0. -/
def RRouter.new {H : Type} : RRouter H := ⟨0, "", []⟩

/-- A scope-derivation step: `Group(prefix)`, or `Use`/`With` (aliases). -/
inductive DOp (H : Type) where
  | group : String → DOp H
  | use : List (H → H) → DOp H

/-- One derivation step: both keep the table reference; `Group` joins the
prefix and copies the middleware slice, `Use`/`With` appends to a copy. -/
def applyOp {H : Type} (r : RRouter H) : DOp H → RRouter H
  | .group p => ⟨r.ref, joinPaths r.pre p, r.mws⟩
  | .use ms => ⟨r.ref, r.pre, r.mws ++ ms⟩

def applyOps {H : Type} (r : RRouter H) : List (DOp H) → RRouter H
  | [] => r
  | op :: ops => applyOps (applyOp r op) ops

def heapGet {H : Type} (hp : List (Table H)) (i : Nat) : Table H :=
  hp.getD i Table.new

/-- `Handle` through a router reference: mutates the referenced table. -/
def handleRef {H : Type} (hp : List (Table H)) (r : RRouter H) (mth p : String)
    (h : H) : List (Table H) :=
  hp.set r.ref ((Scope.mk r.pre r.mws).handle (heapGet hp r.ref) mth p h)

/-- Dispatch through a router reference: reads the referenced table. -/
def dispatchRef {H : Type} (hp : List (Table H)) (r : RRouter H) (p mth : String) :
    DispatchResult H :=
  dispatch (heapGet hp r.ref) p mth

theorem applyOps_ref {H : Type} (r : RRouter H) (ops : List (DOp H)) :
    (applyOps r ops).ref = r.ref := by
  induction ops generalizing r with
  | nil => rfl
  | cons op ops ih =>
    rw [applyOps, ih]
    cases op <;> rfl

theorem hasPre_append_slash (s t : String) (h : hasPre s "/" = true) :
    hasPre (s ++ t) "/" = true := by
  unfold hasPre at *
  rw [String.data_append]
  cases hs : s.data with
  | nil => rw [hs] at h; exact absurd h (by decide)
  | cons c r =>
    rw [hs] at h
    have hd : ("/" : String).data = ['/'] := rfl
    rw [hd] at h ⊢
    simp [dataHasPre] at h ⊢
    exact h

theorem hasPre_slash_cons (p : String) : hasPre ("/" ++ p) "/" = true := by
  unfold hasPre
  rw [String.data_append]
  have hd : ("/" : String).data = ['/'] := rfl
  rw [hd]
  simp [dataHasPre]

/-- The joined path always begins with `/` when the base is empty or itself
begins with `/`. -/
theorem joinPaths_hasPre (base p : String)
    (hb : base = "" ∨ hasPre base "/" = true) :
    hasPre (joinPaths base p) "/" = true := by
  rcases hb with hb | hb
  · subst hb
    unfold joinPaths
    rw [if_pos rfl]
    by_cases hp : hasPre p "/" = true
    · simp [hp]
    · simp only [Bool.not_eq_true] at hp
      simp [hp]
      exact hasPre_slash_cons p
  · by_cases hb0 : base = ""
    · subst hb0; exact absurd hb (by decide)
    · unfold joinPaths
      rw [if_neg hb0]
      by_cases hp0 : p = ""
      · simp [hp0]; exact hb
      · rw [if_neg hp0]
        by_cases hbs : hasSuf base "/" = true
        · simp only [hbs, Bool.not_true, Bool.false_eq_true, if_false]
          exact hasPre_append_slash base _ hb
        · simp only [Bool.not_eq_true] at hbs
          simp only [hbs, Bool.not_false, if_true]
          rw [String.append_assoc]
          exact hasPre_append_slash base _ hb

/-- The scope-prefix invariant (empty or absolute) holds for every router
derived from the root by any sequence of `Group`/`Use`/`With`. -/
theorem applyOps_pre {H : Type} (r : RRouter H) (ops : List (DOp H))
    (hr : r.pre = "" ∨ hasPre r.pre "/" = true) :
    (applyOps r ops).pre = "" ∨ hasPre (applyOps r ops).pre "/" = true := by
  induction ops generalizing r with
  | nil => exact hr
  | cons op ops ih =>
    apply ih
    cases op with
    | group p => exact Or.inr (joinPaths_hasPre _ _ hr)
    | use ms => exact hr

/-! ### Claims -/

/-- C2: `joinPaths` is a total deterministic function satisfying the literal
nine-entry table, and performs no further normalization: internal `//` runs
and `.`/`..` segments are passed through unchanged. -/
theorem claim2_joinPaths_table :
    joinPaths "" "" = "/" ∧
    joinPaths "" "users" = "/users" ∧
    joinPaths "" "/users" = "/users" ∧
    joinPaths "/api" "" = "/api" ∧
    joinPaths "/api/" "" = "/api/" ∧
    joinPaths "/api/" "/users" = "/api/users" ∧
    joinPaths "/api" "/users" = "/api/users" ∧
    joinPaths "/api/" "users" = "/api/users" ∧
    joinPaths "/api/v1" "users/profile" = "/api/v1/users/profile" ∧
    joinPaths "/a//b" "c" = "/a//b/c" ∧
    joinPaths "/a" "b//c" = "/a/b//c" ∧
    joinPaths "/api" "../secret" = "/api/../secret" ∧
    joinPaths "/api" "./x" = "/api/./x" := by
  decide

/-- C10: middleware finalization is a fold: composing with a concatenated
list equals composing with the suffix first and then the first list; the empty
list returns the handler unchanged, so a registration on a middleware-free
scope stores and dispatches the user handler itself. -/
theorem claim10_finalize_fold : ∀ (H : Type),
    (∀ (ms ns : List (H → H)) (h : H),
        finalize (ms ++ ns) h = finalize ms (finalize ns h)) ∧
    (∀ h : H, finalize ([] : List (H → H)) h = h) ∧
    (∀ (pr p m : String) (t : Table H) (h : H),
        dispatch ((Scope.mk pr []).handle t m p h) (joinPaths pr p) m
          = DispatchResult.handled h) := by
  intro H
  refine ⟨finalize_append, fun h => rfl, ?_⟩
  intro pr p m t h
  exact dispatch_handle_self (Scope.mk pr []) t m p h

/-- C1: `Handle` stores the single composed closure `m0 (m1 (... (mn-1 h)))`
built at registration time (dispatch returns exactly that closure), and
executing it runs the pre-delegation logic of m0, ..., mn-1 and then the
handler, in that order, as observed on a shared ordered log. -/
theorem claim1_composed_once_in_order :
    (∀ (H : Type) (m0 m1 m2 : H → H) (h : H),
        finalize [m0, m1, m2] h = m0 (m1 (m2 h))) ∧
    (∀ (names : List String) (pr p m : String) (t : Table LogH),
        dispatch ((Scope.mk pr (names.map logMW)).handle t m p (tagHandler "h"))
            (joinPaths pr p) m
          = DispatchResult.handled (finalize (names.map logMW) (tagHandler "h"))) ∧
    (∀ (names acc : List String),
        finalize (names.map logMW) (tagHandler "h") acc = acc ++ names ++ ["h"]) := by
  refine ⟨fun H m0 m1 m2 h => rfl, ?_, ?_⟩
  · intro names pr p m t
    exact dispatch_handle_self (Scope.mk pr (names.map logMW)) t m p (tagHandler "h")
  · intro names acc
    exact finalize_logMW names "h" acc

/-- C8: `root.Group("/api").Group("/v1").GET("/status", h)` on a fresh router
stores the route under exactly the key "/api/v1/status" (the route table is
that singleton), dispatches there, and `Group` composes prefixes through the
path joiner. -/
theorem claim8_group_nesting : ∀ (H : Type) (h : H),
    (((Scope.new (H := H)).group "/api").group "/v1").pre = "/api/v1" ∧
    ((((Scope.new (H := H)).group "/api").group "/v1").get Table.new "/status" h []).routes
      = [("/api/v1/status", [("GET", h)])] ∧
    dispatch
        ((((Scope.new (H := H)).group "/api").group "/v1").get Table.new "/status" h [])
        "/api/v1/status" "GET" = DispatchResult.handled h ∧
    (∀ (s : Scope H) (p : String), (s.group p).pre = joinPaths s.pre p) := by
  intro H h
  exact ⟨rfl, rfl, rfl, fun s p => rfl⟩

/-- C6: `router.Route(p).Use(m1, m2).GET(h)` performs exactly the same table
update as direct-parameter registration `router.GET(p, h, m1, m2)`; on a
scope with its own chain, the stored handler runs the scope chain, then m1,
then m2, then the handler. -/
theorem claim6_builder_equals_direct :
    (∀ (H : Type) (s : Scope H) (t : Table H) (p : String) (h : H) (m1 m2 : H → H),
        ((s.route p).use [m1, m2]).get t h = s.get t p h [m1, m2]) ∧
    (∀ (names : List String) (a b pr p : String) (t : Table LogH),
        ∃ hh,
          dispatch ((((Scope.mk pr (names.map logMW)).route p).use
                [logMW a, logMW b]).get t (tagHandler "h"))
              (joinPaths pr p) "GET" = DispatchResult.handled hh ∧
          hh [] = names ++ [a, b, "h"]) := by
  constructor
  · intro H s t p h m1 m2
    rfl
  · intro names a b pr p t
    refine ⟨finalize (names.map logMW ++ [logMW a, logMW b]) (tagHandler "h"), ?_, ?_⟩
    · exact dispatch_handle_self
        (Scope.mk pr (names.map logMW ++ [logMW a, logMW b])) t "GET" p (tagHandler "h")
    · rw [show names.map logMW ++ [logMW a, logMW b] = (names ++ [a, b]).map logMW by simp]
      rw [finalize_logMW]
      simp

/-- C7: every per-method registration with a non-empty extra-middleware list
equals registering through a `Use`-derived scope (the extras appended after
the scope chain); with no extras it registers on the current chain; the
handler stored by `GET` is the composition of the scope chain followed by the
extras. -/
theorem claim7_extra_mws_equiv :
    ∀ (H : Type) (s : Scope H) (t : Table H) (p : String) (h : H),
    (∀ (m0 : H → H) (ms : List (H → H)),
        s.get t p h (m0 :: ms) = (s.use (m0 :: ms)).handle t "GET" p h ∧
        s.post t p h (m0 :: ms) = (s.use (m0 :: ms)).handle t "POST" p h ∧
        s.put t p h (m0 :: ms) = (s.use (m0 :: ms)).handle t "PUT" p h ∧
        s.delete t p h (m0 :: ms) = (s.use (m0 :: ms)).handle t "DELETE" p h ∧
        s.patch t p h (m0 :: ms) = (s.use (m0 :: ms)).handle t "PATCH" p h ∧
        s.head t p h (m0 :: ms) = (s.use (m0 :: ms)).handle t "HEAD" p h ∧
        s.options t p h (m0 :: ms) = (s.use (m0 :: ms)).handle t "OPTIONS" p h) ∧
    (s.get t p h [] = s.handle t "GET" p h ∧
        s.post t p h [] = s.handle t "POST" p h ∧
        s.put t p h [] = s.handle t "PUT" p h ∧
        s.delete t p h [] = s.handle t "DELETE" p h ∧
        s.patch t p h [] = s.handle t "PATCH" p h ∧
        s.head t p h [] = s.handle t "HEAD" p h ∧
        s.options t p h [] = s.handle t "OPTIONS" p h) ∧
    (∀ ms : List (H → H),
        dispatch (s.get t p h ms) (joinPaths s.pre p) "GET"
          = DispatchResult.handled (finalize (s.mws ++ ms) h)) := by
  intro H s t p h
  refine ⟨fun m0 ms => ?_, ⟨rfl, rfl, rfl, rfl, rfl, rfl, rfl⟩, ?_⟩
  · refine ⟨?_, ?_, ?_, ?_, ?_, ?_, ?_⟩ <;>
      simp [Scope.get, Scope.post, Scope.put, Scope.delete, Scope.patch, Scope.head,
        Scope.options, Scope.withMws]
  · intro ms
    cases ms with
    | nil =>
      rw [List.append_nil]
      exact dispatch_handle_self s t "GET" p h
    | cons m0 ms =>
      have hd := dispatch_handle_self (s.use (m0 :: ms)) t "GET" p h
      simpa [Scope.get, Scope.withMws, Scope.use] using hd

/-- C4: over any registration history from a fresh router, the mux binding
list has no duplicates (one dispatcher per path); a registration's full path
is bound afterwards; a repeated registration at the same path never re-binds;
and re-registering the same (method, path) overwrites the stored finalized
handler, so dispatch invokes only the second handler. -/
theorem claim4_bind_once_overwrite : ∀ (H : Type),
    (∀ evs : List (Ev H), (runEvs Table.new evs).bound.Nodup) ∧
    (∀ (evs : List (Ev H)) (e : Ev H),
        joinPaths e.scope.pre e.path ∈ (runEvs Table.new (evs ++ [e])).bound) ∧
    (∀ (s : Scope H) (t : Table H) (m m' p : String) (h1 h2 : H),
        (s.handle (s.handle t m p h1) m' p h2).bound = (s.handle t m p h1).bound) ∧
    (∀ (s : Scope H) (t : Table H) (m p : String) (h1 h2 : H),
        methodMap (s.handle (s.handle t m p h1) m p h2) (joinPaths s.pre p)
            = aset (methodMap t (joinPaths s.pre p)) m (finalize s.mws h2) ∧
        dispatch (s.handle (s.handle t m p h1) m p h2) (joinPaths s.pre p) m
            = DispatchResult.handled (finalize s.mws h2)) := by
  intro H
  refine ⟨?_, ?_, ?_, ?_⟩
  · intro evs
    exact (runEvs_good evs Table.new goodTable_new).1
  · intro evs e
    rw [runEvs_append]
    have hg : goodTable (runEvs Table.new evs) := runEvs_good _ _ goodTable_new
    show joinPaths e.scope.pre e.path ∈
      (e.scope.handle (runEvs Table.new evs) e.method e.path e.handler).bound
    rw [handle_bound]
    cases halt : alookup (runEvs Table.new evs).routes (joinPaths e.scope.pre e.path) with
    | none => simp
    | some mm0 =>
      simp only []
      rw [hg.2, halt]
      rfl
  · intro s t m m' p h1 h2
    have hs := handle_routes_self_isSome s t m p h1
    rw [handle_bound]
    cases halt : alookup (s.handle t m p h1).routes (joinPaths s.pre p) with
    | none => rw [halt] at hs; exact absurd hs (by simp)
    | some mm0 => rfl
  · intro s t m p h1 h2
    constructor
    · rw [handle_methodMap, if_pos rfl, handle_methodMap, if_pos rfl, aset_aset_same]
    · exact dispatch_handle_self s (s.handle t m p h1) m p h2

/-- C9: every scope derived from the root by any sequence of `Group`, `Use`,
`With` keeps the root's route-table reference (routes are never copied), so a
registration through one derived scope is dispatchable through any other; and
every derived scope's prefix is empty or begins with "/". -/
theorem claim9_shared_table_and_abs_prefixes :
    ∀ (H : Type) (ops ops' : List (DOp H)) (t : Table H) (m p : String) (h : H),
    (applyOps (RRouter.new (H := H)) ops).ref = (RRouter.new (H := H)).ref ∧
    ((applyOps (RRouter.new (H := H)) ops).pre = "" ∨
        hasPre (applyOps (RRouter.new (H := H)) ops).pre "/" = true) ∧
    dispatchRef (handleRef [t] (applyOps RRouter.new ops) m p h)
        (applyOps RRouter.new ops')
        (joinPaths (applyOps RRouter.new ops).pre p) m
      = DispatchResult.handled (finalize (applyOps RRouter.new ops).mws h) := by
  intro H ops ops' t m p h
  have h1 := applyOps_ref (RRouter.new (H := H)) ops
  have h2 := applyOps_ref (RRouter.new (H := H)) ops'
  refine ⟨h1, applyOps_pre _ _ (Or.inl rfl), ?_⟩
  unfold dispatchRef handleRef
  rw [h1, h2]
  exact dispatch_handle_self
    (Scope.mk (applyOps RRouter.new ops).pre (applyOps RRouter.new ops).mws) t m p h

/-- C3: dispatching a method with no finalized handler at a path invokes no
handler and yields a method-not-allowed response whose allowed-methods set is
exactly the set of methods registered for that path; a registered method is
dispatched to its handler and produces no 405. -/
theorem claim3_method_not_allowed :
    ∀ (H : Type) (evs : List (Ev H)) (p m : String),
    ¬ regAt evs p m →
    dispatch (runEvs Table.new evs) p m
        = DispatchResult.methodNotAllowed
            ((methodMap (runEvs Table.new evs) p).map Prod.fst) ∧
    (∀ m', m' ∈ (methodMap (runEvs Table.new evs) p).map Prod.fst ↔ regAt evs p m') ∧
    (∀ m', regAt evs p m' →
        ∃ hh, dispatch (runEvs Table.new evs) p m' = DispatchResult.handled hh) := by
  intro H evs p m hnone
  have hchar : ∀ m',
      (alookup (methodMap (runEvs Table.new evs) p) m').isSome ↔ regAt evs p m' := by
    intro m'
    rw [runEvs_isSome]
    simp [methodMap, Table.new, alookup]
  refine ⟨?_, ?_, ?_⟩
  · have h0 : alookup (methodMap (runEvs Table.new evs) p) m = none := by
      cases hcase : alookup (methodMap (runEvs Table.new evs) p) m with
      | none => rfl
      | some hh =>
        exact absurd ((hchar m).1 (by rw [hcase]; rfl)) hnone
    unfold dispatch
    rw [h0]
  · intro m'
    rw [mem_map_fst_iff]
    exact hchar m'
  · intro m' hm'
    have hsome := (hchar m').2 hm'
    cases hcase : alookup (methodMap (runEvs Table.new evs) p) m' with
    | none => rw [hcase] at hsome; exact absurd hsome (by simp)
    | some hh =>
      refine ⟨hh, ?_⟩
      unfold dispatch
      rw [hcase]

/-- Witness for C3: after registering GET and POST on "/p" on a fresh router,
PUT is unregistered and dispatching it yields the method-not-allowed response
enumerating the registered methods. -/
theorem claim3_witness :
    (¬ regAt [Ev.mk (Scope.mk "" []) "GET" "/p" (0 : Nat),
        Ev.mk (Scope.mk "" []) "POST" "/p" 1] "/p" "PUT") ∧
    dispatch (runEvs Table.new [Ev.mk (Scope.mk "" []) "GET" "/p" (0 : Nat),
        Ev.mk (Scope.mk "" []) "POST" "/p" 1]) "/p" "PUT"
      = DispatchResult.methodNotAllowed
          ((methodMap (runEvs Table.new [Ev.mk (Scope.mk "" []) "GET" "/p" (0 : Nat),
              Ev.mk (Scope.mk "" []) "POST" "/p" 1]) "/p").map Prod.fst) := by
  have hnot : ¬ regAt [Ev.mk (Scope.mk "" []) "GET" "/p" (0 : Nat),
      Ev.mk (Scope.mk "" []) "POST" "/p" 1] "/p" "PUT" := by
    rintro ⟨e, he, h1, h2⟩
    rcases List.mem_cons.1 he with he1 | he1
    · subst he1; exact absurd h2 (by decide)
    · rcases List.mem_cons.1 he1 with he2 | he2
      · subst he2; exact absurd h2 (by decide)
      · simp at he2
  exact ⟨hnot, (claim3_method_not_allowed Nat _ "/p" "PUT" hnot).1⟩

/-- C5: deriving scope B from A via `Use(m)` yields a new scope whose chain is
A's chain extended by m, while a route registered directly on A afterwards is
finalized with A's chain only — middleware m never executes for it. -/
theorem claim5_scope_isolation (names : List String) (mt pr p meth : String)
    (t : Table LogH) (hmem : mt ∉ names) (hne : mt ≠ "h") :
    ((Scope.mk pr (names.map logMW)).use [logMW mt]).mws
        = names.map logMW ++ [logMW mt] ∧
    (Scope.mk pr (names.map logMW)).mws = names.map logMW ∧
    (∃ hh, dispatch ((Scope.mk pr (names.map logMW)).handle t meth p (tagHandler "h"))
          (joinPaths pr p) meth = DispatchResult.handled hh ∧
        hh [] = names ++ ["h"] ∧ mt ∉ hh []) := by
  refine ⟨rfl, rfl, finalize (names.map logMW) (tagHandler "h"), ?_, ?_, ?_⟩
  · exact dispatch_handle_self (Scope.mk pr (names.map logMW)) t meth p (tagHandler "h")
  · rw [finalize_logMW]; simp
  · rw [finalize_logMW]; simp [hmem, hne]

/-- Witness for C5: with A's chain logging "n", deriving a scope with a
middleware logging "m" leaves a route registered on A executing only "n" then
"h"; "m" never appears. -/
theorem claim5_witness :
    (("m" : String) ∉ ["n"] ∧ ("m" : String) ≠ "h") ∧
    (((Scope.mk "" (["n"].map logMW)).use [logMW "m"]).mws
        = ["n"].map logMW ++ [logMW "m"] ∧
    (Scope.mk "" (["n"].map logMW)).mws = ["n"].map logMW ∧
    (∃ hh, dispatch ((Scope.mk "" (["n"].map logMW)).handle Table.new "GET" "/x"
            (tagHandler "h"))
          (joinPaths "" "/x") "GET" = DispatchResult.handled hh ∧
        hh [] = ["n"] ++ ["h"] ∧ "m" ∉ hh [])) :=
  ⟨⟨by decide, by decide⟩,
    claim5_scope_isolation ["n"] "m" "" "/x" "GET" Table.new (by decide) (by decide)⟩

end SimpleRouter
